import Mathlib

/-!
Verification of the inline diff-review engine of the base44-sync VS Code
extension (`src/extension.ts`): the pending-change builder `markChanges`,
the store `pendingByDoc`, the resolution commands `extension.acceptChange`
and `extension.rejectChange`, and the decoration renderer
`refreshDecorationsFor`.

Texts are embedded as lists of characters (JS strings), documents as the
full text of the file, positions and ranges as in the vscode API with
zero-based line/character coordinates carried as integers (JS numbers).
-/

namespace Base44Sync

/-- A JS string: the character sequence. -/
abbrev Str := List Char

/-- One diff segment (`Diff.ChangeObject<string>`) as produced by the external
line differ `Diff.diffLines`: a text `value` plus the `added`/`removed` flags
(an equal segment has both flags false). -/
structure DiffPart where
  value : Str
  added : Bool := false
  removed : Bool := false
deriving Repr, DecidableEq

/-- A `vscode.Position`: zero-based line and character, as JS numbers. -/
structure Pos where
  line : Int
  character : Int
deriving Repr, DecidableEq

/-- A `vscode.Range`: start and end position (`stop` stands for the `end`
field of the source, which is a reserved word here). -/
structure Range where
  start : Pos
  stop : Pos
deriving Repr, DecidableEq

/-- The `ChangeKind` union type: `"added" | "removed" | "changed"`. -/
inductive ChangeKind where
  | added
  | removed
  | changed
deriving Repr, DecidableEq

/-- A `PendingChange` record: unique id, kind, sticky range, remote text. -/
structure PendingChange where
  id : Nat
  kind : ChangeKind
  range : Range
  remoteText : Str
deriving Repr, DecidableEq

/-- JS `text.split('\n')`: the segments of `text` between newline characters.
The result is never empty; a trailing newline contributes a final empty
segment, exactly as in JS. -/
def splitOnNl : Str → List Str
  | [] => [[]]
  | c :: cs =>
    let rest := splitOnNl cs
    if c = '\n' then [] :: rest
    else
      match rest with
      | [] => [[c]]
      | h :: t => (c :: h) :: t

/-- JS `text.endsWith('\n')`. -/
def endsWithNl : Str → Bool
  | [] => false
  | [c] => c = '\n'
  | _ :: c :: cs => endsWithNl (c :: cs)

/-- The line count the builder assigns to one diff segment:
`value.split('\n').length - (value.endsWith('\n') ? 1 : 0)`
(markChanges, lines 103, 138 and 189 of the source). -/
def segLineCount (s : Str) : Nat :=
  (splitOnNl s).length - (if endsWithNl s then 1 else 0)

/-- The lines of a document, as the vscode API numbers them: text split at
every newline, so a text with a trailing newline has a final empty line. -/
def docLines (d : Str) : List Str := splitOnNl d

/-- `TextDocument.lineCount`. -/
def numLines (d : Str) : Nat := (docLines d).length

/-- The length of document line `e` (`lineAt(e).range.end.character`). -/
def lineLenAt (d : Str) (e : Nat) : Nat := ((docLines d).getD e []).length

/-- `document.lineAt(e).rangeIncludingLineBreak.end`: the position just past
line `e` and its line terminator — `(e+1, 0)` when line `e` is followed by
another line, and the end of the line itself when `e` is the last line. -/
def lineEndIncludingBreak (d : Str) (e : Nat) : Pos :=
  if e + 1 < numLines d then ⟨(e : Int) + 1, 0⟩ else ⟨e, lineLenAt d e⟩

/-- The range built for a `removed` or `changed` record covering the
`n` local lines starting at `li`: from `(li, 0)` to
`lineAt(li + n - 1).rangeIncludingLineBreak.end` (markChanges, lines
105-112 and 139-146 of the source). -/
def mkFullLineRange (d : Str) (li n : Nat) : Range :=
  ⟨⟨li, 0⟩, lineEndIncludingBreak d (li + n - 1)⟩

/-- The diff-segment walk of `markChanges` (lines 94-191 of the source),
building the pending-change list. `li` is the local line cursor and `cid`
the next change id. A removed segment immediately followed by an added
segment is merged into one `changed` record and both segments are consumed;
a removed segment alone yields a `removed` record; an added segment yields a
zero-width `added` record at `(li, 0)`; an equal segment only advances `li`.
Returns the list together with the final value of the id counter. -/
def markChangesAux (d : Str) : List DiffPart → Nat → Nat → List PendingChange × Nat
  | [], _li, cid => ([], cid)
  | [p], li, cid =>
    if p.removed then
      ([⟨cid, .removed, mkFullLineRange d li (segLineCount p.value), []⟩], cid + 1)
    else if p.added then
      ([⟨cid, .added, ⟨⟨li, 0⟩, ⟨li, 0⟩⟩, p.value⟩], cid + 1)
    else
      ([], cid)
  | p :: q :: rest, li, cid =>
    if p.removed && q.added then
      let r := markChangesAux d rest (li + segLineCount p.value) (cid + 1)
      (⟨cid, .changed, mkFullLineRange d li (segLineCount p.value), q.value⟩ :: r.1, r.2)
    else if p.removed then
      let r := markChangesAux d (q :: rest) (li + segLineCount p.value) (cid + 1)
      (⟨cid, .removed, mkFullLineRange d li (segLineCount p.value), []⟩ :: r.1, r.2)
    else if p.added then
      let r := markChangesAux d (q :: rest) li (cid + 1)
      (⟨cid, .added, ⟨⟨li, 0⟩, ⟨li, 0⟩⟩, p.value⟩ :: r.1, r.2)
    else
      markChangesAux d (q :: rest) (li + segLineCount p.value) cid

/-- `markChanges` on a document: walk the diff segments from line 0 starting
at the current value `c` of the global `nextChangeId` counter; returns the
pending list and the updated counter (`nextChangeId = nextChangeIdLocal`). -/
def markChanges (d : Str) (diffs : List DiffPart) (c : Nat) : List PendingChange × Nat :=
  markChangesAux d diffs 0 c

/-- The `pendingByDoc` map, document URI string to pending list. -/
abbrev Store := List (String × List PendingChange)

/-- `pendingByDoc.get(key)`. -/
def storeGet (s : Store) (k : String) : Option (List PendingChange) :=
  match s with
  | [] => none
  | (k', v) :: rest => if k' = k then some v else storeGet rest k

/-- `pendingByDoc.set(key, v)`: replace the entry if the key is present,
append it otherwise (JS `Map.set`). -/
def storeSet (s : Store) (k : String) (v : List PendingChange) : Store :=
  match s with
  | [] => [(k, v)]
  | (k', v') :: rest => if k' = k then (k, v) :: rest else (k', v') :: storeSet rest k v

/-- `pendingByDoc.delete(key)`. -/
def storeDelete (s : Store) (k : String) : Store :=
  match s with
  | [] => []
  | (k', v') :: rest => if k' = k then rest else (k', v') :: storeDelete rest k

/-- The character offset in the document of the start of line `l`. -/
def lineStartOffset (d : Str) (l : Nat) : Nat :=
  ((docLines d).take l).foldl (fun a s => a + s.length + 1) 0

/-- The character offset in the document of a position. -/
def posToOffset (d : Str) (p : Pos) : Nat :=
  lineStartOffset d p.line.toNat + p.character.toNat

/-- `editBuilder.delete(range)`. -/
def deleteRange (d : Str) (r : Range) : Str :=
  d.take (posToOffset d r.start) ++ d.drop (posToOffset d r.stop)

/-- `editBuilder.insert(pos, text)`. -/
def insertAt (d : Str) (p : Pos) (t : Str) : Str :=
  d.take (posToOffset d p) ++ t ++ d.drop (posToOffset d p)

/-- `editBuilder.replace(range, text)`. -/
def replaceRange (d : Str) (r : Range) (t : Str) : Str :=
  d.take (posToOffset d r.start) ++ t ++ d.drop (posToOffset d r.stop)

/-- The single atomic edit `acceptChange` submits for a change (lines 393-401
of the source): delete the range for `removed`, replace it with `remoteText`
for `changed`, insert `remoteText` at the range start for `added`. -/
def applyChangeEdit (d : Str) (ch : PendingChange) : Str :=
  match ch.kind with
  | .removed => deleteRange d ch.range
  | .changed => replaceRange d ch.range ch.remoteText
  | .added => insertAt d ch.range.start ch.remoteText

/-- The `lineDelta` computation of `acceptChange` (lines 380-391 of the
source), as JS integer arithmetic:
`removed`: `-(range.end.line - range.start.line + 1)`;
`changed`: `(remoteText.split('\n').length - 1) - (range.end.line - range.start.line)`;
`added`: `remoteText.split('\n').length - 1`. -/
def lineDelta (ch : PendingChange) : Int :=
  match ch.kind with
  | .removed => -(ch.range.stop.line - ch.range.start.line + 1)
  | .changed =>
    (((splitOnNl ch.remoteText).length : Int) - 1)
      - (ch.range.stop.line - ch.range.start.line)
  | .added => ((splitOnNl ch.remoteText).length : Int) - 1

/-- The re-anchoring applied to one later pending change (lines 403-414 of
the source): shift both line numbers by `lineDelta`, keep both character
offsets. -/
def shiftRange (r : Range) (delta : Int) : Range :=
  ⟨⟨r.start.line + delta, r.start.character⟩, ⟨r.stop.line + delta, r.stop.character⟩⟩

/-- JS `Array.prototype.findIndex` (tests run in list order; a miss, JS `-1`,
is `none`). -/
def jsFindIndex (p : α → Bool) : List α → Option Nat
  | [] => none
  | x :: xs => if p x then some 0 else (jsFindIndex p xs).map (· + 1)

/-- The observable outcome of an accept or reject command: the document text,
the whole store, and whether an informational message was shown. -/
structure CmdResult where
  doc : Str
  store : Store
  notified : Bool
deriving Repr, DecidableEq

/-- The `extension.acceptChange` command (lines 362-446 of the source) on
document `doc` registered in `store` under `uri`, invoked with change id
`id`. `editApplies` tells whether the host actually applied the submitted
edit; the source never consults the boolean result of `editor.edit`, so the
list update below runs in either case, only the document text differs.
Misses (no store entry, unknown id) return everything unchanged. Otherwise:
compute `lineDelta` of the found change, submit the edit, shift every later
pending change by `lineDelta`, splice the found change out, delete the store
entry if the list became empty (showing the completion message) or store the
updated list. -/
def acceptChange (store : Store) (uri : String) (doc : Str) (id : Nat)
    (editApplies : Bool) : CmdResult :=
  match storeGet store uri with
  | none => ⟨doc, store, false⟩
  | some pending =>
    match jsFindIndex (fun c => c.id = id) pending with
    | none => ⟨doc, store, false⟩
    | some idx =>
      match pending[idx]? with
      | none => ⟨doc, store, false⟩
      | some ch =>
        let delta := lineDelta ch
        let doc' := if editApplies then applyChangeEdit doc ch else doc
        let reanchored :=
          pending.take (idx + 1)
            ++ (pending.drop (idx + 1)).map
                (fun c => { c with range := shiftRange c.range delta })
        let remaining := reanchored.eraseIdx idx
        let store' :=
          if remaining.isEmpty then storeDelete store uri
          else storeSet store uri remaining
        ⟨doc', store', remaining.isEmpty⟩

/-- The `extension.rejectChange` command (lines 448-488 of the source):
on a miss everything is unchanged; otherwise splice the found change out of
the list and update the store; the document text is never touched and no
message is shown. -/
def rejectChange (store : Store) (uri : String) (doc : Str) (id : Nat) : CmdResult :=
  match storeGet store uri with
  | none => ⟨doc, store, false⟩
  | some pending =>
    match jsFindIndex (fun c => c.id = id) pending with
    | none => ⟨doc, store, false⟩
    | some idx =>
      let remaining := pending.eraseIdx idx
      let store' :=
        if remaining.isEmpty then storeDelete store uri
        else storeSet store uri remaining
      ⟨doc, store', false⟩

/-- Run `extension.acceptChange` for each id in turn (edits applied by the
host), threading document and store. -/
def acceptIds (uri : String) : List Nat → Str × Store → Str × Store
  | [], s => s
  | id :: ids, (doc, store) =>
    let r := acceptChange store uri doc id true
    acceptIds uri ids (r.doc, r.store)

/-- A sequence of `markChanges` calls (one per pulled document) threading the
single process-wide `nextChangeId` counter, as the pull command does. -/
def runPulls (c : Nat) : List (Str × List DiffPart) → List (List PendingChange) × Nat
  | [] => ([], c)
  | (d, ds) :: rest =>
    let r := markChanges d ds c
    let rr := runPulls r.2 rest
    (r.1 :: rr.1, rr.2)

/-- The display range computed by `refreshDecorationsFor` for one pending
change (lines 65-70 of the source), together with the document line index
passed to `document.lineAt` when the trimming branch runs: when
`range.end.character == 0` the display range is rebuilt to end at the end of
line `range.end.line - 1`, whose length is fetched from the document. -/
def refreshDecoRange (d : Str) (ch : PendingChange) : Range × Option Int :=
  if ch.range.stop.character = 0 then
    let l := ch.range.stop.line - 1
    (⟨ch.range.start, ⟨l, lineLenAt d l.toNat⟩⟩, some l)
  else
    (ch.range, none)

/-- Position order used to state non-overlap of ranges. -/
def posLE (p q : Pos) : Prop :=
  p.line < q.line ∨ (p.line = q.line ∧ p.character ≤ q.character)

instance (p q : Pos) : Decidable (posLE p q) :=
  inferInstanceAs (Decidable (p.line < q.line ∨ (p.line = q.line ∧ p.character ≤ q.character)))

/-- The adjacency constraints of the external line differ's output: two
adjacent segments are never both added nor both removed (the differ
coalesces runs), and a replacement is emitted as a removed segment followed
by an added one, never the other way around. -/
def wellShapedAdj : List DiffPart → Prop
  | [] => True
  | [_] => True
  | p :: q :: rest =>
    (¬(p.added = true ∧ q.added = true) ∧
     ¬(p.removed = true ∧ q.removed = true) ∧
     ¬(p.added = true ∧ q.removed = true)) ∧
    wellShapedAdj (q :: rest)

instance instDecWellShapedAdj : (ds : List DiffPart) → Decidable (wellShapedAdj ds)
  | [] => isTrue trivial
  | [_] => isTrue trivial
  | p :: q :: rest =>
    haveI := instDecWellShapedAdj (q :: rest)
    inferInstanceAs (Decidable
      ((¬(p.added = true ∧ q.added = true) ∧
        ¬(p.removed = true ∧ q.removed = true) ∧
        ¬(p.added = true ∧ q.removed = true)) ∧
       wellShapedAdj (q :: rest)))

/-- Structural contract of the external line differ's output, as the spec
states it: a segment is never both added and removed, and the adjacency
constraints of `wellShapedAdj` hold along the sequence. -/
def wellShaped (ds : List DiffPart) : Prop :=
  (∀ p ∈ ds, ¬(p.added = true ∧ p.removed = true)) ∧ wellShapedAdj ds

instance (ds : List DiffPart) : Decidable (wellShaped ds) :=
  inferInstanceAs (Decidable
    ((∀ p ∈ ds, ¬(p.added = true ∧ p.removed = true)) ∧ wellShapedAdj ds))

/-- The local text a diff-segment sequence tiles: the concatenation of the
non-added segments. -/
def segsLocal (ds : List DiffPart) : Str :=
  (ds.filter (fun p => !p.added)).foldr (fun p acc => p.value ++ acc) []

/-- The remote text a diff-segment sequence tiles: the concatenation of the
non-removed segments. -/
def segsRemote (ds : List DiffPart) : Str :=
  (ds.filter (fun p => !p.removed)).foldr (fun p acc => p.value ++ acc) []

/-- `ds` is a line diff of `localText` against `remoteText`: it is well
shaped and tiles both texts. -/
def ValidDiffOf (localText remoteText : Str) (ds : List DiffPart) : Prop :=
  segsLocal ds = localText ∧ segsRemote ds = remoteText ∧ wellShaped ds

instance (l r : Str) (ds : List DiffPart) : Decidable (ValidDiffOf l r ds) :=
  inferInstanceAs (Decidable (segsLocal ds = l ∧ segsRemote ds = r ∧ wellShaped ds))

/-- The spanned lines of a removed or changed range: the count of document
lines the range covers, from its start line through its end line — the range
is built to include the trailing line break of the last covered line, so its
end lands at column 0 of the following line whenever such a break exists. -/
def spannedLines (r : Range) : Int := r.stop.line - r.start.line + 1

/-- The number of newline characters in a text. -/
def newlinesIn (s : Str) : Nat := s.count '\n'

theorem splitOnNl_ne_nil (s : Str) : splitOnNl s ≠ [] := by
  match s with
  | [] => simp [splitOnNl]
  | c :: cs =>
    rw [splitOnNl]
    cases hsp : splitOnNl cs with
    | nil => split <;> simp
    | cons h t => by_cases hc : c = '\n' <;> simp [hc]

theorem splitOnNl_length (s : Str) : (splitOnNl s).length = s.count '\n' + 1 := by
  induction s with
  | nil => rfl
  | cons c cs ih =>
    rw [splitOnNl]
    cases hsp : splitOnNl cs with
    | nil => exact absurd hsp (splitOnNl_ne_nil cs)
    | cons h t =>
      rw [hsp] at ih
      by_cases hc : c = '\n' <;>
        simp_all [List.count_cons, hc]

theorem endsWithNl_count (s : Str) (h : endsWithNl s = true) : 1 ≤ s.count '\n' := by
  match s with
  | [] => simp [endsWithNl] at h
  | [c] =>
    simp [endsWithNl] at h
    simp [h, List.count_cons]
  | a :: c :: cs =>
    rw [endsWithNl] at h
    have hr := endsWithNl_count (c :: cs) h
    simp [List.count_cons] at hr ⊢
    omega

theorem segLineCount_pos (s : Str) : 1 ≤ segLineCount s := by
  unfold segLineCount
  rw [splitOnNl_length]
  cases h : endsWithNl s with
  | false => simp [h]
  | true =>
    have h1 := endsWithNl_count s h
    simp only [h, if_true]
    omega

theorem jsFindIndex_spec {α : Type} (p : α → Bool) (l : List α) (i : Nat)
    (h : jsFindIndex p l = some i) : ∃ a, l[i]? = some a ∧ p a = true := by
  induction l generalizing i with
  | nil => simp [jsFindIndex] at h
  | cons x xs ih =>
    rw [jsFindIndex] at h
    by_cases hx : p x = true
    · simp [hx] at h
      exact ⟨x, by simp [← h], hx⟩
    · simp [hx] at h
      obtain ⟨j, hj, rfl⟩ := h
      obtain ⟨a, ha, hpa⟩ := ih j hj
      exact ⟨a, by simpa using ha, hpa⟩

theorem eraseIdx_take_succ {α : Type} (l : List α) (i : Nat) (h : i < l.length) :
    (l.take (i + 1)).eraseIdx i = l.take i := by
  induction l generalizing i with
  | nil => simp at h
  | cons x xs ih =>
    cases i with
    | zero => simp [List.eraseIdx]
    | succ i =>
      simp only [List.take_succ_cons, List.eraseIdx_cons_succ]
      rw [ih i (by simpa using h)]

theorem storeGet_storeSet (s : Store) (k : String) (v : List PendingChange) :
    storeGet (storeSet s k v) k = some v := by
  induction s with
  | nil => simp [storeSet, storeGet]
  | cons e rest ih =>
    obtain ⟨k', v'⟩ := e
    rw [storeSet]
    by_cases hk : k' = k <;> simp [storeGet, hk, ih]

/-- Claim C2: for every pending change being accepted, the accept operation
computes `lineDelta` as `-(spannedLines)` for `removed`, `(newline count of
remoteText) - (spannedLines - 1)` for `changed`, and `(newline count of
remoteText)` for `added`, where the spanned lines of a removed or changed
range count the document lines the range covers including the line its
trailing line break ends on. -/
theorem c2_lineDelta_formula (ch : PendingChange) :
    lineDelta ch =
      match ch.kind with
      | .removed => -(spannedLines ch.range)
      | .changed => (newlinesIn ch.remoteText : Int) - (spannedLines ch.range - 1)
      | .added => (newlinesIn ch.remoteText : Int) := by
  have h := splitOnNl_length ch.remoteText
  unfold lineDelta spannedLines newlinesIn
  cases ch.kind <;> simp only [] <;> rw [h] <;> push_cast <;> ring

/-- Claim C5: in the diff-segment walk, a removed segment immediately
followed by an added segment is merged into exactly one `changed` record
whose range runs from `(li, 0)` to the end of line
`li + removedLineCount - 1` including its trailing line break, whose
`remoteText` is the added segment's full text; both segments are consumed in
one step and the local line cursor advances by the removed line count only
(and the id counter by one). -/
theorem c5_merged_changed (d : Str) (p q : DiffPart) (rest : List DiffPart)
    (li cid : Nat) (hp : p.removed = true) (hq : q.added = true) :
    markChangesAux d (p :: q :: rest) li cid =
      (⟨cid, .changed,
         ⟨⟨li, 0⟩, lineEndIncludingBreak d (li + segLineCount p.value - 1)⟩,
         q.value⟩
        :: (markChangesAux d rest (li + segLineCount p.value) (cid + 1)).1,
       (markChangesAux d rest (li + segLineCount p.value) (cid + 1)).2) := by
  simp [markChangesAux, hp, hq, mkFullLineRange]

/-- Witness for C5 at a concrete input. -/
theorem c5_merged_changed_witness :
    markChangesAux "b\n".data
        [⟨"b\n".data, false, true⟩, ⟨"B\n".data, true, false⟩] 0 1 =
      (⟨1, .changed,
         ⟨⟨0, 0⟩, lineEndIncludingBreak "b\n".data (0 + segLineCount "b\n".data - 1)⟩,
         "B\n".data⟩
        :: (markChangesAux "b\n".data [] (0 + segLineCount "b\n".data) 2).1,
       (markChangesAux "b\n".data [] (0 + segLineCount "b\n".data) 2).2) :=
  c5_merged_changed "b\n".data ⟨"b\n".data, false, true⟩ ⟨"B\n".data, true, false⟩ [] 0 1
    rfl rfl

/-- Claim C7: invoking accept or reject with a document identity that has no
store entry, or with an id not present in that document's pending list, is a
no-op: the store and the document text are unchanged and no notification is
shown — whatever the host would have done with an edit. -/
theorem c7_unknown_id_noop (store : Store) (uri : String) (doc : Str) (id : Nat)
    (h : ∀ pending, storeGet store uri = some pending →
        jsFindIndex (fun c => c.id = id) pending = none) :
    (∀ editApplies, acceptChange store uri doc id editApplies = ⟨doc, store, false⟩) ∧
    rejectChange store uri doc id = ⟨doc, store, false⟩ := by
  constructor
  · intro e
    unfold acceptChange
    cases hs : storeGet store uri with
    | none => rfl
    | some pending => simp [h pending hs]
  · unfold rejectChange
    cases hs : storeGet store uri with
    | none => rfl
    | some pending => simp [h pending hs]

/-- Witness for C7: an empty store (no entry for the document). -/
theorem c7_unknown_id_noop_witness :
    (∀ editApplies,
        acceptChange [] "file:///f" "a\n".data 7 editApplies =
          ⟨"a\n".data, [], false⟩) ∧
    rejectChange [] "file:///f" "a\n".data 7 = ⟨"a\n".data, [], false⟩ :=
  c7_unknown_id_noop [] "file:///f" "a\n".data 7
    (fun _ hp => by simp [storeGet] at hp)

theorem eraseIdx_getElem?_ge {α : Type} (l : List α) (i k : Nat) (h : i ≤ k) :
    (l.eraseIdx i)[k]? = l[k + 1]? := by
  induction l generalizing i k with
  | nil => simp [List.eraseIdx]
  | cons x xs ih =>
    cases i with
    | zero => simp [List.eraseIdx]
    | succ i =>
      cases k with
      | zero => omega
      | succ k =>
        simp only [List.eraseIdx_cons_succ, List.getElem?_cons_succ]
        exact ih i k (by omega)

/-- Claim C8: rejecting a pending change removes exactly the change at the
found index for that id (splicing the list), leaves the document text
unchanged, shows no notification, and every other pending change — before or
after the removed one — is kept identical, range included. -/
theorem c8_reject_removes (store : Store) (uri : String) (doc : Str) (id : Nat)
    (pending : List PendingChange) (i : Nat)
    (hs : storeGet store uri = some pending)
    (hfind : jsFindIndex (fun c => c.id = id) pending = some i) :
    rejectChange store uri doc id =
      ⟨doc,
       if (pending.eraseIdx i).isEmpty then storeDelete store uri
       else storeSet store uri (pending.eraseIdx i),
       false⟩ ∧
    pending[i]?.map (·.id) = some id ∧
    (∀ k, k < i → (pending.eraseIdx i)[k]? = pending[k]?) ∧
    (∀ k, i ≤ k → (pending.eraseIdx i)[k]? = pending[k + 1]?) := by
  refine ⟨?_, ?_, ?_, ?_⟩
  · simp [rejectChange, hs, hfind]
  · obtain ⟨a, ha, hpa⟩ := jsFindIndex_spec _ _ _ hfind
    rw [ha]
    simpa using hpa
  · intro k hk
    exact List.getElem?_eraseIdx_of_lt pending i k hk
  · intro k hk
    exact eraseIdx_getElem?_ge pending i k hk

/-- Witness for C8 at a concrete store. -/
theorem c8_reject_removes_witness :
    (rejectChange
        [("file:///f",
          [⟨1, .removed, ⟨⟨1, 0⟩, ⟨2, 0⟩⟩, []⟩,
           ⟨2, .added, ⟨⟨3, 0⟩, ⟨3, 0⟩⟩, "X\n".data⟩])]
        "file:///f" "a\nb\nc\n".data 1 =
      ⟨"a\nb\nc\n".data,
       if (([⟨1, .removed, ⟨⟨1, 0⟩, ⟨2, 0⟩⟩, []⟩,
             ⟨2, .added, ⟨⟨3, 0⟩, ⟨3, 0⟩⟩, "X\n".data⟩] :
              List PendingChange).eraseIdx 0).isEmpty then
         storeDelete
           [("file:///f",
             [⟨1, .removed, ⟨⟨1, 0⟩, ⟨2, 0⟩⟩, []⟩,
              ⟨2, .added, ⟨⟨3, 0⟩, ⟨3, 0⟩⟩, "X\n".data⟩])] "file:///f"
       else
         storeSet
           [("file:///f",
             [⟨1, .removed, ⟨⟨1, 0⟩, ⟨2, 0⟩⟩, []⟩,
              ⟨2, .added, ⟨⟨3, 0⟩, ⟨3, 0⟩⟩, "X\n".data⟩])] "file:///f"
           (([⟨1, .removed, ⟨⟨1, 0⟩, ⟨2, 0⟩⟩, []⟩,
              ⟨2, .added, ⟨⟨3, 0⟩, ⟨3, 0⟩⟩, "X\n".data⟩] :
               List PendingChange).eraseIdx 0),
       false⟩) ∧
    ([⟨1, .removed, ⟨⟨1, 0⟩, ⟨2, 0⟩⟩, []⟩,
      ⟨2, .added, ⟨⟨3, 0⟩, ⟨3, 0⟩⟩, "X\n".data⟩] :
       List PendingChange)[0]?.map (·.id) = some 1 :=
  have h :=
    c8_reject_removes
      [("file:///f",
        [⟨1, .removed, ⟨⟨1, 0⟩, ⟨2, 0⟩⟩, []⟩,
         ⟨2, .added, ⟨⟨3, 0⟩, ⟨3, 0⟩⟩, "X\n".data⟩])]
      "file:///f" "a\nb\nc\n".data 1
      [⟨1, .removed, ⟨⟨1, 0⟩, ⟨2, 0⟩⟩, []⟩,
       ⟨2, .added, ⟨⟨3, 0⟩, ⟨3, 0⟩⟩, "X\n".data⟩] 0
      (by decide) (by decide)
  ⟨h.1, h.2.1⟩

/-- Claim C3: accepting change `A` (found at index `i` for the requested id)
re-anchors every later pending change `B` by shifting both its line numbers
by exactly `lineDelta A`, keeps its character offsets and remote text, and
leaves every change earlier in the list untouched. Stated on the store entry
committed by `acceptChange`. -/
theorem c3_accept_reanchors (store : Store) (uri : String) (doc : Str)
    (pending : List PendingChange) (aid i j : Nat) (A B : PendingChange)
    (editApplies : Bool)
    (hs : storeGet store uri = some pending)
    (hfind : jsFindIndex (fun c => c.id = aid) pending = some i)
    (hA : pending[i]? = some A) (hB : pending[j]? = some B) (hij : i < j) :
    ∃ l', storeGet (acceptChange store uri doc aid editApplies).store uri = some l' ∧
      l'[j - 1]? = some { B with range := shiftRange B.range (lineDelta A) } ∧
      (shiftRange B.range (lineDelta A)).start.line = B.range.start.line + lineDelta A ∧
      (shiftRange B.range (lineDelta A)).stop.line = B.range.stop.line + lineDelta A ∧
      (shiftRange B.range (lineDelta A)).start.character = B.range.start.character ∧
      (shiftRange B.range (lineDelta A)).stop.character = B.range.stop.character ∧
      ∀ k, k < i → l'[k]? = pending[k]? := by
  have hjlen : j < pending.length := (List.getElem?_eq_some.mp hB).1
  have hilen : i < pending.length := lt_trans hij hjlen
  have htake : (pending.take i).length = i := by
    rw [List.length_take]
    omega
  refine ⟨pending.take i ++
      (pending.drop (i + 1)).map
        (fun c : PendingChange => { c with range := shiftRange c.range (lineDelta A) }),
    ?_, ?_, rfl, rfl, rfl, rfl, ?_⟩
  · have hre :
        ((pending.take (i + 1) ++
            (pending.drop (i + 1)).map
              (fun c : PendingChange =>
                { c with range := shiftRange c.range (lineDelta A) })).eraseIdx i)
          = pending.take i ++
              (pending.drop (i + 1)).map
                (fun c : PendingChange =>
                  { c with range := shiftRange c.range (lineDelta A) }) := by
      rw [List.eraseIdx_append_of_lt_length (by rw [List.length_take]; omega),
        eraseIdx_take_succ pending i hilen]
    have hlen :
        (pending.take i ++
          (pending.drop (i + 1)).map
            (fun c : PendingChange =>
              { c with range := shiftRange c.range (lineDelta A) })).length
          = pending.length - 1 := by
      simp only [List.length_append, List.length_take, List.length_map, List.length_drop]
      omega
    have hne :
        (pending.take i ++
          (pending.drop (i + 1)).map
            (fun c : PendingChange =>
              { c with range := shiftRange c.range (lineDelta A) })).isEmpty
          = false := by
      rw [List.isEmpty_eq_false]
      intro hcon
      rw [hcon] at hlen
      simp at hlen
      omega
    simp only [acceptChange, hs, hfind, hA, hre, hne]
    simp only [Bool.false_eq_true, if_false]
    exact storeGet_storeSet store uri _
  · rw [List.getElem?_append_right (by omega : (pending.take i).length ≤ j - 1),
      List.getElem?_map, List.getElem?_drop, htake]
    have harith : i + 1 + (j - 1 - i) = j := by omega
    rw [harith, hB]
    rfl
  · intro k hk
    rw [List.getElem?_append_left (by rw [htake]; omega), List.getElem?_take]
    simp [hk]

/-- Witness for C3: accepting the first of two pending changes shifts the
second by the computed delta. -/
theorem c3_accept_reanchors_witness :
    ∃ l',
      storeGet
        (acceptChange
          [("file:///f",
            [⟨1, .removed, ⟨⟨1, 0⟩, ⟨2, 0⟩⟩, []⟩,
             ⟨2, .added, ⟨⟨3, 0⟩, ⟨3, 0⟩⟩, "X\n".data⟩])]
          "file:///f" "a\nb\nc\n".data 1 true).store "file:///f" = some l' ∧
      l'[1 - 1]? =
        some { (⟨2, .added, ⟨⟨3, 0⟩, ⟨3, 0⟩⟩, "X\n".data⟩ : PendingChange) with
                 range := shiftRange ⟨⟨3, 0⟩, ⟨3, 0⟩⟩
                   (lineDelta ⟨1, .removed, ⟨⟨1, 0⟩, ⟨2, 0⟩⟩, []⟩) } ∧
      (shiftRange ⟨⟨3, 0⟩, ⟨3, 0⟩⟩
          (lineDelta ⟨1, .removed, ⟨⟨1, 0⟩, ⟨2, 0⟩⟩, []⟩)).start.line
        = (3 : Int) + lineDelta ⟨1, .removed, ⟨⟨1, 0⟩, ⟨2, 0⟩⟩, []⟩ ∧
      (shiftRange ⟨⟨3, 0⟩, ⟨3, 0⟩⟩
          (lineDelta ⟨1, .removed, ⟨⟨1, 0⟩, ⟨2, 0⟩⟩, []⟩)).stop.line
        = (3 : Int) + lineDelta ⟨1, .removed, ⟨⟨1, 0⟩, ⟨2, 0⟩⟩, []⟩ ∧
      (shiftRange ⟨⟨3, 0⟩, ⟨3, 0⟩⟩
          (lineDelta ⟨1, .removed, ⟨⟨1, 0⟩, ⟨2, 0⟩⟩, []⟩)).start.character = (0 : Int) ∧
      (shiftRange ⟨⟨3, 0⟩, ⟨3, 0⟩⟩
          (lineDelta ⟨1, .removed, ⟨⟨1, 0⟩, ⟨2, 0⟩⟩, []⟩)).stop.character = (0 : Int) ∧
      ∀ k, k < 0 →
        l'[k]? =
          ([⟨1, .removed, ⟨⟨1, 0⟩, ⟨2, 0⟩⟩, []⟩,
            ⟨2, .added, ⟨⟨3, 0⟩, ⟨3, 0⟩⟩, "X\n".data⟩] :
             List PendingChange)[k]? :=
  c3_accept_reanchors
    [("file:///f",
      [⟨1, .removed, ⟨⟨1, 0⟩, ⟨2, 0⟩⟩, []⟩,
       ⟨2, .added, ⟨⟨3, 0⟩, ⟨3, 0⟩⟩, "X\n".data⟩])]
    "file:///f" "a\nb\nc\n".data
    [⟨1, .removed, ⟨⟨1, 0⟩, ⟨2, 0⟩⟩, []⟩,
     ⟨2, .added, ⟨⟨3, 0⟩, ⟨3, 0⟩⟩, "X\n".data⟩]
    1 0 1 ⟨1, .removed, ⟨⟨1, 0⟩, ⟨2, 0⟩⟩, []⟩ ⟨2, .added, ⟨⟨3, 0⟩, ⟨3, 0⟩⟩, "X\n".data⟩
    true (by decide) (by decide) (by decide) (by decide) (by decide)

/-- Claim C4, failing input: the source never consults the success result of
`editor.edit`, so when the host fails to apply the edit (the document text
stays as it was) the accepted change is still removed from the pending list
and the re-anchoring of the other changes is still committed to the store —
the store entry is not left unmodified. -/
theorem c4_edit_failure_still_commits :
    (acceptChange
        [("file:///f",
          [⟨1, .removed, ⟨⟨1, 0⟩, ⟨2, 0⟩⟩, []⟩,
           ⟨2, .added, ⟨⟨3, 0⟩, ⟨3, 0⟩⟩, "X\n".data⟩])]
        "file:///f" "a\nb\nc\n".data 1 false).doc = "a\nb\nc\n".data ∧
    (acceptChange
        [("file:///f",
          [⟨1, .removed, ⟨⟨1, 0⟩, ⟨2, 0⟩⟩, []⟩,
           ⟨2, .added, ⟨⟨3, 0⟩, ⟨3, 0⟩⟩, "X\n".data⟩])]
        "file:///f" "a\nb\nc\n".data 1 false).store =
      [("file:///f", [⟨2, .added, ⟨⟨1, 0⟩, ⟨1, 0⟩⟩, "X\n".data⟩])] ∧
    (acceptChange
        [("file:///f",
          [⟨1, .removed, ⟨⟨1, 0⟩, ⟨2, 0⟩⟩, []⟩,
           ⟨2, .added, ⟨⟨3, 0⟩, ⟨3, 0⟩⟩, "X\n".data⟩])]
        "file:///f" "a\nb\nc\n".data 1 false).store ≠
      [("file:///f",
        [⟨1, .removed, ⟨⟨1, 0⟩, ⟨2, 0⟩⟩, []⟩,
         ⟨2, .added, ⟨⟨3, 0⟩, ⟨3, 0⟩⟩, "X\n".data⟩])] := by
  decide

/-- The local text of the C1 failing input. -/
def c1local : Str := "a\nb\nc\n".data

/-- The (already normalized) remote text of the C1 failing input. -/
def c1remote : Str := "a\nc\nX\n".data

/-- The line diff of `c1local` against `c1remote`: keep `a`, remove `b`,
keep `c`, add `X`. -/
def c1diffs : List DiffPart :=
  [⟨"a\n".data, false, false⟩, ⟨"b\n".data, false, true⟩,
   ⟨"c\n".data, false, false⟩, ⟨"X\n".data, true, false⟩]

/-- Claim C1, failing input: `c1diffs` is a valid line diff of the pair
`(c1local, c1remote)`, yet accepting every pending change built by
`markChanges` in list order leaves the document at `"a\nX\nc\n"`, not at the
remote text `"a\nc\nX\n"`: accepting the removal shifts the later insertion
point by `-2` (its `lineDelta`) although only one line was deleted. -/
theorem c1_accept_all_misses_remote :
    ValidDiffOf c1local c1remote c1diffs ∧
    (let pending := (markChanges c1local c1diffs 1).1
     let store := storeSet [] "file:///f" pending
     (acceptIds "file:///f" (pending.map (·.id)) (c1local, store)).1 = "a\nX\nc\n".data) ∧
    "a\nX\nc\n".data ≠ c1remote := by
  constructor
  · decide
  constructor
  · decide
  · decide

theorem mA_counter_le (d : Str) (ds : List DiffPart) (li c : Nat) :
    c ≤ (markChangesAux d ds li c).2 := by
  induction ds, li, c using markChangesAux.induct d with
  | case1 li c => simp [markChangesAux]
  | case2 p li c hp => simp [markChangesAux, hp]
  | case3 p li c hp ha => simp [markChangesAux, hp, ha]
  | case4 p li c hp ha => simp [markChangesAux, hp, ha]
  | case5 p q rest li c hg ih =>
    simp only [markChangesAux]
    rw [if_pos hg]
    show c ≤ (markChangesAux d rest (li + segLineCount p.value) (c + 1)).2
    omega
  | case6 p q rest li c hg hp ih =>
    simp only [markChangesAux]
    rw [if_neg hg, if_pos hp]
    show c ≤ (markChangesAux d (q :: rest) (li + segLineCount p.value) (c + 1)).2
    omega
  | case7 p q rest li c hg hp ha ih =>
    simp only [markChangesAux]
    rw [if_neg hg, if_neg hp, if_pos ha]
    show c ≤ (markChangesAux d (q :: rest) li (c + 1)).2
    omega
  | case8 p q rest li c hg hp ha ih =>
    simp only [markChangesAux]
    rw [if_neg hg, if_neg hp, if_neg ha]
    exact ih

theorem mA_id_bounds (d : Str) (ds : List DiffPart) (li c : Nat) :
    ∀ ch ∈ (markChangesAux d ds li c).1,
      c ≤ ch.id ∧ ch.id < (markChangesAux d ds li c).2 := by
  induction ds, li, c using markChangesAux.induct d with
  | case1 li c => simp [markChangesAux]
  | case2 p li c hp => simp [markChangesAux, hp]
  | case3 p li c hp ha => simp [markChangesAux, hp, ha]
  | case4 p li c hp ha => simp [markChangesAux, hp, ha]
  | case5 p q rest li c hg ih =>
    have hle := mA_counter_le d rest (li + segLineCount p.value) (c + 1)
    simp only [markChangesAux]
    rw [if_pos hg]
    show ∀ ch ∈ (⟨c, .changed, mkFullLineRange d li (segLineCount p.value), q.value⟩ :
        PendingChange) :: (markChangesAux d rest (li + segLineCount p.value) (c + 1)).1,
      c ≤ ch.id ∧ ch.id < (markChangesAux d rest (li + segLineCount p.value) (c + 1)).2
    intro ch hch
    rcases List.mem_cons.mp hch with rfl | hm
    · refine ⟨le_refl c, ?_⟩
      show c < (markChangesAux d rest (li + segLineCount p.value) (c + 1)).2
      omega
    · have h2 := ih ch hm
      omega
  | case6 p q rest li c hg hp ih =>
    have hle := mA_counter_le d (q :: rest) (li + segLineCount p.value) (c + 1)
    simp only [markChangesAux]
    rw [if_neg hg, if_pos hp]
    show ∀ ch ∈ (⟨c, .removed, mkFullLineRange d li (segLineCount p.value), []⟩ :
        PendingChange) :: (markChangesAux d (q :: rest) (li + segLineCount p.value) (c + 1)).1,
      c ≤ ch.id ∧ ch.id < (markChangesAux d (q :: rest) (li + segLineCount p.value) (c + 1)).2
    intro ch hch
    rcases List.mem_cons.mp hch with rfl | hm
    · refine ⟨le_refl c, ?_⟩
      show c < (markChangesAux d (q :: rest) (li + segLineCount p.value) (c + 1)).2
      omega
    · have h2 := ih ch hm
      omega
  | case7 p q rest li c hg hp ha ih =>
    have hle := mA_counter_le d (q :: rest) li (c + 1)
    simp only [markChangesAux]
    rw [if_neg hg, if_neg hp, if_pos ha]
    show ∀ ch ∈ (⟨c, .added, ⟨⟨li, 0⟩, ⟨li, 0⟩⟩, p.value⟩ :
        PendingChange) :: (markChangesAux d (q :: rest) li (c + 1)).1,
      c ≤ ch.id ∧ ch.id < (markChangesAux d (q :: rest) li (c + 1)).2
    intro ch hch
    rcases List.mem_cons.mp hch with rfl | hm
    · refine ⟨le_refl c, ?_⟩
      show c < (markChangesAux d (q :: rest) li (c + 1)).2
      omega
    · have h2 := ih ch hm
      omega
  | case8 p q rest li c hg hp ha ih =>
    simp only [markChangesAux]
    rw [if_neg hg, if_neg hp, if_neg ha]
    exact ih

theorem mA_ids_sorted (d : Str) (ds : List DiffPart) (li c : Nat) :
    List.Pairwise (fun a b => a.id < b.id) (markChangesAux d ds li c).1 := by
  induction ds, li, c using markChangesAux.induct d with
  | case1 li c => simp [markChangesAux]
  | case2 p li c hp => simp [markChangesAux, hp]
  | case3 p li c hp ha => simp [markChangesAux, hp, ha]
  | case4 p li c hp ha => simp [markChangesAux, hp, ha]
  | case5 p q rest li c hg ih =>
    have hb := mA_id_bounds d rest (li + segLineCount p.value) (c + 1)
    simp only [markChangesAux]
    rw [if_pos hg]
    show List.Pairwise (fun a b => a.id < b.id)
      ((⟨c, .changed, mkFullLineRange d li (segLineCount p.value), q.value⟩ :
        PendingChange) :: (markChangesAux d rest (li + segLineCount p.value) (c + 1)).1)
    rw [List.pairwise_cons]
    exact ⟨fun b hb' => by have h2 := hb b hb'; show c < b.id; omega, ih⟩
  | case6 p q rest li c hg hp ih =>
    have hb := mA_id_bounds d (q :: rest) (li + segLineCount p.value) (c + 1)
    simp only [markChangesAux]
    rw [if_neg hg, if_pos hp]
    show List.Pairwise (fun a b => a.id < b.id)
      ((⟨c, .removed, mkFullLineRange d li (segLineCount p.value), []⟩ :
        PendingChange) :: (markChangesAux d (q :: rest) (li + segLineCount p.value) (c + 1)).1)
    rw [List.pairwise_cons]
    exact ⟨fun b hb' => by have h2 := hb b hb'; show c < b.id; omega, ih⟩
  | case7 p q rest li c hg hp ha ih =>
    have hb := mA_id_bounds d (q :: rest) li (c + 1)
    simp only [markChangesAux]
    rw [if_neg hg, if_neg hp, if_pos ha]
    show List.Pairwise (fun a b => a.id < b.id)
      ((⟨c, .added, ⟨⟨li, 0⟩, ⟨li, 0⟩⟩, p.value⟩ :
        PendingChange) :: (markChangesAux d (q :: rest) li (c + 1)).1)
    rw [List.pairwise_cons]
    exact ⟨fun b hb' => by have h2 := hb b hb'; show c < b.id; omega, ih⟩
  | case8 p q rest li c hg hp ha ih =>
    simp only [markChangesAux]
    rw [if_neg hg, if_neg hp, if_neg ha]
    exact ih

theorem runPulls_counter_le (calls : List (Str × List DiffPart)) (c : Nat) :
    c ≤ (runPulls c calls).2 := by
  induction calls generalizing c with
  | nil => simp [runPulls]
  | cons call rest ih =>
    obtain ⟨d, ds⟩ := call
    have h1 := mA_counter_le d ds 0 c
    have h2 := ih (markChanges d ds c).2
    simp only [runPulls]
    exact le_trans h1 h2

theorem runPulls_id_bounds (calls : List (Str × List DiffPart)) (c : Nat) :
    ∀ l ∈ (runPulls c calls).1, ∀ ch ∈ l, c ≤ ch.id := by
  induction calls generalizing c with
  | nil => simp [runPulls]
  | cons call rest ih =>
    obtain ⟨d, ds⟩ := call
    simp only [runPulls]
    intro l hl ch hch
    rcases List.mem_cons.mp hl with rfl | hm
    · exact (mA_id_bounds d ds 0 c ch hch).1
    · have h1 := mA_counter_le d ds 0 c
      have h2 := ih (markChanges d ds c).2 l hm ch hch
      exact le_trans h1 h2

/-- Claim C9: pending-change ids come from the single counter threaded
through every `markChanges` call of the process: over any sequence of calls
on any documents, the ids of all produced records, read in process order,
are strictly increasing — so an id assigned later is strictly greater than
every id assigned earlier, ids never collide across documents and are never
reused. -/
theorem c9_ids_monotonic (c : Nat) (calls : List (Str × List DiffPart)) :
    List.Pairwise (fun a b => a.id < b.id) (runPulls c calls).1.flatten := by
  induction calls generalizing c with
  | nil => simp [runPulls]
  | cons call rest ih =>
    obtain ⟨d, ds⟩ := call
    simp only [runPulls, List.flatten_cons]
    rw [List.pairwise_append]
    refine ⟨mA_ids_sorted d ds 0 c, ih _, ?_⟩
    intro a ha b hb
    have h1 := (mA_id_bounds d ds 0 c a ha).2
    obtain ⟨l, hl, hbl⟩ := List.mem_flatten.mp hb
    have h2 := runPulls_id_bounds rest (markChanges d ds c).2 l hl b hbl
    have h3 : (markChanges d ds c).2 = (markChangesAux d ds 0 c).2 := rfl
    omega

theorem wellShapedAdj_tail (x : DiffPart) (l : List DiffPart)
    (h : wellShapedAdj (x :: l)) : wellShapedAdj l := by
  cases l with
  | nil => trivial
  | cons y l' => exact h.2

theorem posLE_trans {p q r : Pos} (h1 : posLE p q) (h2 : posLE q r) : posLE p r := by
  unfold posLE at h1 h2 ⊢
  omega

theorem posLE_lineEnd (d : Str) (e : Nat) :
    posLE (lineEndIncludingBreak d e) ⟨(e : Int) + 1, 0⟩ := by
  unfold lineEndIncludingBreak
  split
  · exact Or.inr ⟨rfl, le_refl 0⟩
  · exact Or.inl (by show (e : Int) < (e : Int) + 1; omega)

theorem mkFullLineRange_stop_le (d : Str) (li n : Nat) (hn : 1 ≤ n) :
    posLE (mkFullLineRange d li n).stop ⟨((li + n : Nat) : Int), 0⟩ := by
  have heq : ((li + n - 1 : Nat) : Int) + 1 = ((li + n : Nat) : Int) := by omega
  show posLE (lineEndIncludingBreak d (li + n - 1)) ⟨((li + n : Nat) : Int), 0⟩
  rw [← heq]
  exact posLE_lineEnd d (li + n - 1)

theorem mA_start_bound (d : Str) (ds : List DiffPart) (li c : Nat) :
    ∀ ch ∈ (markChangesAux d ds li c).1,
      (li : Int) ≤ ch.range.start.line ∧ ch.range.start.character = 0 := by
  induction ds, li, c using markChangesAux.induct d with
  | case1 li c => simp [markChangesAux]
  | case2 p li c hp => simp [markChangesAux, hp, mkFullLineRange]
  | case3 p li c hp ha => simp [markChangesAux, hp, ha]
  | case4 p li c hp ha => simp [markChangesAux, hp, ha]
  | case5 p q rest li c hg ih =>
    simp only [markChangesAux]
    rw [if_pos hg]
    show ∀ ch ∈ (⟨c, .changed, mkFullLineRange d li (segLineCount p.value), q.value⟩ :
        PendingChange) :: (markChangesAux d rest (li + segLineCount p.value) (c + 1)).1,
      (li : Int) ≤ ch.range.start.line ∧ ch.range.start.character = 0
    intro ch hch
    rcases List.mem_cons.mp hch with rfl | hm
    · exact ⟨le_refl _, rfl⟩
    · obtain ⟨h1, h2⟩ := ih ch hm
      exact ⟨by omega, h2⟩
  | case6 p q rest li c hg hp ih =>
    simp only [markChangesAux]
    rw [if_neg hg, if_pos hp]
    show ∀ ch ∈ (⟨c, .removed, mkFullLineRange d li (segLineCount p.value), []⟩ :
        PendingChange) :: (markChangesAux d (q :: rest) (li + segLineCount p.value) (c + 1)).1,
      (li : Int) ≤ ch.range.start.line ∧ ch.range.start.character = 0
    intro ch hch
    rcases List.mem_cons.mp hch with rfl | hm
    · exact ⟨le_refl _, rfl⟩
    · obtain ⟨h1, h2⟩ := ih ch hm
      exact ⟨by omega, h2⟩
  | case7 p q rest li c hg hp ha ih =>
    simp only [markChangesAux]
    rw [if_neg hg, if_neg hp, if_pos ha]
    show ∀ ch ∈ (⟨c, .added, ⟨⟨li, 0⟩, ⟨li, 0⟩⟩, p.value⟩ :
        PendingChange) :: (markChangesAux d (q :: rest) li (c + 1)).1,
      (li : Int) ≤ ch.range.start.line ∧ ch.range.start.character = 0
    intro ch hch
    rcases List.mem_cons.mp hch with rfl | hm
    · exact ⟨le_refl _, rfl⟩
    · exact ih ch hm
  | case8 p q rest li c hg hp ha ih =>
    simp only [markChangesAux]
    rw [if_neg hg, if_neg hp, if_neg ha]
    intro ch hch
    obtain ⟨h1, h2⟩ := ih ch hch
    exact ⟨by omega, h2⟩

theorem c6_aux (d : Str) (ds : List DiffPart) (li c : Nat) :
    wellShaped ds →
    List.Pairwise
      (fun a b : PendingChange =>
        posLE a.range.stop b.range.start ∧ a.range.start.line < b.range.start.line)
      (markChangesAux d ds li c).1 := by
  induction ds, li, c using markChangesAux.induct d with
  | case1 li c => intro h; simp [markChangesAux]
  | case2 p li c hp => intro h; simp [markChangesAux, hp]
  | case3 p li c hp ha => intro h; simp [markChangesAux, hp, ha]
  | case4 p li c hp ha => intro h; simp [markChangesAux, hp, ha]
  | case5 p q rest li c hg ih =>
    intro h
    have hn := segLineCount_pos p.value
    have hws : wellShaped rest :=
      ⟨fun x hx => h.1 x (by simp [hx]),
       wellShapedAdj_tail q rest (wellShapedAdj_tail p (q :: rest) h.2)⟩
    simp only [markChangesAux]
    rw [if_pos hg]
    show List.Pairwise _
      ((⟨c, .changed, mkFullLineRange d li (segLineCount p.value), q.value⟩ :
        PendingChange) :: (markChangesAux d rest (li + segLineCount p.value) (c + 1)).1)
    rw [List.pairwise_cons]
    refine ⟨?_, ih hws⟩
    intro b hb
    obtain ⟨hb1, hb2⟩ := mA_start_bound d rest (li + segLineCount p.value) (c + 1) b hb
    constructor
    · refine posLE_trans (mkFullLineRange_stop_le d li (segLineCount p.value) hn) ?_
      show ((li + segLineCount p.value : Nat) : Int) < b.range.start.line ∨
        (((li + segLineCount p.value : Nat) : Int) = b.range.start.line ∧
          (0 : Int) ≤ b.range.start.character)
      omega
    · show (li : Int) < b.range.start.line
      omega
  | case6 p q rest li c hg hp ih =>
    intro h
    have hn := segLineCount_pos p.value
    have hws : wellShaped (q :: rest) :=
      ⟨fun x hx => h.1 x (by simp [hx]), wellShapedAdj_tail p (q :: rest) h.2⟩
    simp only [markChangesAux]
    rw [if_neg hg, if_pos hp]
    show List.Pairwise _
      ((⟨c, .removed, mkFullLineRange d li (segLineCount p.value), []⟩ :
        PendingChange) :: (markChangesAux d (q :: rest) (li + segLineCount p.value) (c + 1)).1)
    rw [List.pairwise_cons]
    refine ⟨?_, ih hws⟩
    intro b hb
    obtain ⟨hb1, hb2⟩ :=
      mA_start_bound d (q :: rest) (li + segLineCount p.value) (c + 1) b hb
    constructor
    · refine posLE_trans (mkFullLineRange_stop_le d li (segLineCount p.value) hn) ?_
      show ((li + segLineCount p.value : Nat) : Int) < b.range.start.line ∨
        (((li + segLineCount p.value : Nat) : Int) = b.range.start.line ∧
          (0 : Int) ≤ b.range.start.character)
      omega
    · show (li : Int) < b.range.start.line
      omega
  | case7 p q rest li c hg hp ha ih =>
    intro h
    have hadj := h.2.1
    have hrest : wellShapedAdj (q :: rest) := h.2.2
    have hqa : q.added = false := by
      cases hqa' : q.added
      · rfl
      · exact absurd ⟨ha, hqa'⟩ hadj.1
    have hqr : q.removed = false := by
      cases hqr' : q.removed
      · rfl
      · exact absurd ⟨ha, hqr'⟩ hadj.2.2
    have hws : wellShaped (q :: rest) :=
      ⟨fun x hx => h.1 x (by simp [hx]), hrest⟩
    simp only [markChangesAux]
    rw [if_neg hg, if_neg hp, if_pos ha]
    show List.Pairwise _
      ((⟨c, .added, ⟨⟨li, 0⟩, ⟨li, 0⟩⟩, p.value⟩ :
        PendingChange) :: (markChangesAux d (q :: rest) li (c + 1)).1)
    rw [List.pairwise_cons]
    refine ⟨?_, ih hws⟩
    intro b hb
    have hstep : ((li + segLineCount q.value : Nat) : Int) ≤ b.range.start.line ∧
        b.range.start.character = 0 := by
      cases rest with
      | nil =>
        simp [markChangesAux, hqr, hqa] at hb
      | cons r rest' =>
        have hg' : ¬((q.removed && r.added) = true) := by simp [hqr]
        have hqr' : ¬(q.removed = true) := by simp [hqr]
        have hqa' : ¬(q.added = true) := by simp [hqa]
        simp only [markChangesAux] at hb
        rw [if_neg hg', if_neg hqr', if_neg hqa'] at hb
        exact mA_start_bound d (r :: rest') (li + segLineCount q.value) (c + 1) b hb
    obtain ⟨hb1, hb2⟩ := hstep
    have hq := segLineCount_pos q.value
    constructor
    · show (li : Int) < b.range.start.line ∨
        ((li : Int) = b.range.start.line ∧ (0 : Int) ≤ b.range.start.character)
      omega
    · show (li : Int) < b.range.start.line
      omega
  | case8 p q rest li c hg hp ha ih =>
    intro h
    have hws : wellShaped (q :: rest) :=
      ⟨fun x hx => h.1 x (by simp [hx]), wellShapedAdj_tail p (q :: rest) h.2⟩
    simp only [markChangesAux]
    rw [if_neg hg, if_neg hp, if_neg ha]
    exact ih hws

/-- Claim C6: for every diff-segment sequence satisfying the line differ's
structural output contract, the pending-change list built by `markChanges`
has ranges that are pairwise non-overlapping (each range ends at or before
the next one starts) and ordered by strictly ascending start line. -/
theorem c6_ranges_ordered (d : Str) (ds : List DiffPart) (c : Nat)
    (h : wellShaped ds) :
    List.Pairwise
      (fun a b : PendingChange =>
        posLE a.range.stop b.range.start ∧ a.range.start.line < b.range.start.line)
      (markChanges d ds c).1 :=
  c6_aux d ds 0 c h

/-- Witness for C6 at a concrete diff. -/
theorem c6_ranges_ordered_witness :
    List.Pairwise
      (fun a b : PendingChange =>
        posLE a.range.stop b.range.start ∧ a.range.start.line < b.range.start.line)
      (markChanges "a\nb\nc\n".data
        [⟨"a\n".data, false, false⟩, ⟨"b\n".data, false, true⟩,
         ⟨"c\n".data, false, false⟩, ⟨"X\n".data, true, false⟩] 1).1 :=
  c6_ranges_ordered "a\nb\nc\n".data
    [⟨"a\n".data, false, false⟩, ⟨"b\n".data, false, true⟩,
     ⟨"c\n".data, false, false⟩, ⟨"X\n".data, true, false⟩] 1 (by decide)

/-- Claim C10: (1) every `added` record built by the diff walk has a
zero-width range, so its end character is 0; (2) for every pending change
whose range end character is 0, the renderer's trimming branch runs and asks
the document for the line at index `range.end.line - 1` (the display range's
end line); (3) in particular, for an added change anchored at document
line 0, `refreshDecorationsFor` requests the document line at index `-1`,
which is outside the document's line bounds `[0, lineCount)`. -/
theorem c10_renderer_trim :
    (∀ (d : Str) (ds : List DiffPart) (li c : Nat),
      ∀ ch ∈ (markChangesAux d ds li c).1, ch.kind = ChangeKind.added →
        ch.range.stop.character = 0 ∧ ch.range.stop = ch.range.start) ∧
    (∀ (d : Str) (ch : PendingChange), ch.range.stop.character = 0 →
      (refreshDecoRange d ch).2 = some (ch.range.stop.line - 1)) ∧
    ((markChanges "a\n".data [⟨"X\n".data, true, false⟩] 1).1 =
        [⟨1, .added, ⟨⟨0, 0⟩, ⟨0, 0⟩⟩, "X\n".data⟩] ∧
      (refreshDecoRange "a\n".data ⟨1, .added, ⟨⟨0, 0⟩, ⟨0, 0⟩⟩, "X\n".data⟩).2 =
        some (-1) ∧
      ¬(0 ≤ (-1 : Int) ∧ (-1 : Int) < (numLines "a\n".data : Int))) := by
  refine ⟨?_, ?_, by decide⟩
  · intro d ds li c
    induction ds, li, c using markChangesAux.induct d with
    | case1 li c => simp [markChangesAux]
    | case2 p li c hp =>
      simp only [markChangesAux]
      rw [if_pos hp]
      intro ch hch hk
      rcases List.mem_cons.mp hch with rfl | hm
      · simp at hk
      · simp at hm
    | case3 p li c hp ha =>
      simp only [markChangesAux]
      rw [if_neg hp, if_pos ha]
      intro ch hch hk
      rcases List.mem_cons.mp hch with rfl | hm
      · exact ⟨rfl, rfl⟩
      · simp at hm
    | case4 p li c hp ha =>
      simp only [markChangesAux]
      rw [if_neg hp, if_neg ha]
      simp
    | case5 p q rest li c hg ih =>
      simp only [markChangesAux]
      rw [if_pos hg]
      show ∀ ch ∈ (⟨c, .changed, mkFullLineRange d li (segLineCount p.value), q.value⟩ :
          PendingChange) :: (markChangesAux d rest (li + segLineCount p.value) (c + 1)).1,
        ch.kind = ChangeKind.added →
          ch.range.stop.character = 0 ∧ ch.range.stop = ch.range.start
      intro ch hch hk
      rcases List.mem_cons.mp hch with rfl | hm
      · simp at hk
      · exact ih ch hm hk
    | case6 p q rest li c hg hp ih =>
      simp only [markChangesAux]
      rw [if_neg hg, if_pos hp]
      show ∀ ch ∈ (⟨c, .removed, mkFullLineRange d li (segLineCount p.value), []⟩ :
          PendingChange) :: (markChangesAux d (q :: rest) (li + segLineCount p.value) (c + 1)).1,
        ch.kind = ChangeKind.added →
          ch.range.stop.character = 0 ∧ ch.range.stop = ch.range.start
      intro ch hch hk
      rcases List.mem_cons.mp hch with rfl | hm
      · simp at hk
      · exact ih ch hm hk
    | case7 p q rest li c hg hp ha ih =>
      simp only [markChangesAux]
      rw [if_neg hg, if_neg hp, if_pos ha]
      show ∀ ch ∈ (⟨c, .added, ⟨⟨li, 0⟩, ⟨li, 0⟩⟩, p.value⟩ :
          PendingChange) :: (markChangesAux d (q :: rest) li (c + 1)).1,
        ch.kind = ChangeKind.added →
          ch.range.stop.character = 0 ∧ ch.range.stop = ch.range.start
      intro ch hch hk
      rcases List.mem_cons.mp hch with rfl | hm
      · exact ⟨rfl, rfl⟩
      · exact ih ch hm hk
    | case8 p q rest li c hg hp ha ih =>
      simp only [markChangesAux]
      rw [if_neg hg, if_neg hp, if_neg ha]
      exact ih
  · intro d ch h
    simp [refreshDecoRange, h]

/-- Witness for C10: the added change built at line 0 really takes the
trimming branch and requests line `-1`. -/
theorem c10_renderer_trim_witness :
    ((⟨1, .added, ⟨⟨0, 0⟩, ⟨0, 0⟩⟩, "X\n".data⟩ : PendingChange).range.stop.character = 0 ∧
     (⟨1, .added, ⟨⟨0, 0⟩, ⟨0, 0⟩⟩, "X\n".data⟩ : PendingChange).range.stop =
       (⟨1, .added, ⟨⟨0, 0⟩, ⟨0, 0⟩⟩, "X\n".data⟩ : PendingChange).range.start) ∧
    (refreshDecoRange "a\n".data ⟨1, .added, ⟨⟨0, 0⟩, ⟨0, 0⟩⟩, "X\n".data⟩).2 =
      some ((⟨1, .added, ⟨⟨0, 0⟩, ⟨0, 0⟩⟩, "X\n".data⟩ : PendingChange).range.stop.line - 1) :=
  ⟨c10_renderer_trim.1 "a\n".data [⟨"X\n".data, true, false⟩] 0 1
      ⟨1, .added, ⟨⟨0, 0⟩, ⟨0, 0⟩⟩, "X\n".data⟩ (by decide) rfl,
   c10_renderer_trim.2.1 "a\n".data ⟨1, .added, ⟨⟨0, 0⟩, ⟨0, 0⟩⟩, "X\n".data⟩ rfl⟩

end Base44Sync
